import Mathlib

/-!
Verification of the entry-access subsystem of a VPK (packed game archive)
reader. The definitions below are a shallow embedding of `src/entry.rs`:
the fixed 16-byte directory-entry header (`VPKDirectoryEntry`, decoded
field by field in little-endian order, as the derived binary reader does),
the entry value (`VPKEntry`), and the pollable reader state machine
(`VPKEntryReader`) that serves preloaded bytes first and then a bounded
window of the archive blob.

Bytes are modelled as natural numbers, archive paths as natural-number
identifiers, and the file system as a partial map from path identifiers to
blob contents. File I/O performed while constructing a reader is recorded
as an explicit trace of events so that claims about how often the blob is
opened and seeked can be stated.
-/

set_option autoImplicit false

namespace VPK

/-- Errors raised while decoding a directory-entry header. Both variants
correspond to the `MalformedHeader` class of failures: the input ran out
before 16 bytes were available, or the 2-byte terminator did not match the
expected sentinel. -/
inductive MalformedHeader where
  | truncated
  | badTerminator
  deriving DecidableEq, Repr

/-- An I/O failure while opening the archive blob. -/
inductive IOErr where
  | notFound
  deriving DecidableEq, Repr

/-- Header of a VPK entry, as laid out in the root VPK directory index
(struct `VPKDirectoryEntry` in `src/entry.rs`). -/
structure VPKDirectoryEntry where
  crc32 : Nat
  preload_length : Nat
  archive_index : Nat
  archive_offset : Nat
  file_length : Nat
  suffix : Nat
  deriving DecidableEq, Repr

/-- The value of the little-endian `u16` whose two bytes sit at `pos`. -/
def u16v (bytes : List Nat) (pos : Nat) : Nat :=
  bytes.getD pos 0 + 256 * bytes.getD (pos + 1) 0

/-- The value of the little-endian `u32` whose four bytes sit at `pos`. -/
def u32v (bytes : List Nat) (pos : Nat) : Nat :=
  bytes.getD pos 0 + 256 * bytes.getD (pos + 1) 0
    + 65536 * bytes.getD (pos + 2) 0 + 16777216 * bytes.getD (pos + 3) 0

/-- Read a little-endian `u16` at `pos`: two bytes are required, otherwise
the read fails with an end-of-input error (the behaviour of the derived
binary reader on a short source). -/
def readU16le (bytes : List Nat) (pos : Nat) :
    Except MalformedHeader (Nat × Nat) :=
  if pos + 2 ≤ bytes.length then .ok (u16v bytes pos, pos + 2)
  else .error .truncated

/-- Read a little-endian `u32` at `pos`: four bytes are required, otherwise
the read fails with an end-of-input error. -/
def readU32le (bytes : List Nat) (pos : Nat) :
    Except MalformedHeader (Nat × Nat) :=
  if pos + 4 ≤ bytes.length then .ok (u32v bytes pos, pos + 4)
  else .error .truncated

/-- Decoding of a `VPKDirectoryEntry` from a byte cursor, as performed by
the derived binary reader on the struct in `src/entry.rs`: the six fields
are read sequentially in declaration order, each little-endian. Returns
the decoded header together with the cursor position after it. -/
def VPKDirectoryEntry.decode (bytes : List Nat) (pos : Nat) :
    Except MalformedHeader (VPKDirectoryEntry × Nat) :=
  match readU32le bytes pos with
  | .error e => .error e
  | .ok (crc32, p1) =>
    match readU16le bytes p1 with
    | .error e => .error e
    | .ok (preload_length, p2) =>
      match readU16le bytes p2 with
      | .error e => .error e
      | .ok (archive_index, p3) =>
        match readU32le bytes p3 with
        | .error e => .error e
        | .ok (archive_offset, p4) =>
          match readU32le bytes p4 with
          | .error e => .error e
          | .ok (file_length, p5) =>
            match readU16le bytes p5 with
            | .error e => .error e
            | .ok (suffix, p6) =>
              .ok (⟨crc32, preload_length, archive_index,
                    archive_offset, file_length, suffix⟩, p6)

/-- Modelled from the spec: the fixed sentinel value that the 2-byte
terminator field of every directory entry must equal. The validation code
lives in the repository's directory parser, which is not under `src/`;
the concrete value used here is the VPK terminator `0xFFFF`. -/
def terminatorSentinel : Nat := 0xFFFF

/-- Modelled from the spec: the public header-decoding operation. The
repository's directory parser (not under `src/`) decodes a
`VPKDirectoryEntry` and then rejects the record when its terminator field
does not equal the expected sentinel; no header value is produced in that
case. -/
def decode_header (bytes : List Nat) (pos : Nat) :
    Except MalformedHeader (VPKDirectoryEntry × Nat) :=
  match VPKDirectoryEntry.decode bytes pos with
  | .error e => .error e
  | .ok (entry, pos') =>
    if entry.suffix = terminatorSentinel then .ok (entry, pos')
    else .error .badTerminator

/-- An entry in the VPK (struct `VPKEntry` in `src/entry.rs`): the decoded
header, an optional path to the archive blob the remaining data lives in,
and the preloaded bytes copied out of the directory index. Paths are
modelled as natural-number identifiers. -/
structure VPKEntry where
  dir_entry : VPKDirectoryEntry
  archive_path : Option Nat
  preload_data : List Nat
  deriving DecidableEq, Repr

/-- A file-system event performed by the entry-access code, recorded so
that claims about how often the blob is opened, seeked and read can be
stated. -/
inductive IOEvent where
  | fopen (path : Nat)
  | seekTo (off : Nat)
  | readBlob (n : Nat)
  deriving DecidableEq, Repr

/-- `true` exactly on blob-read events: an event trace all of whose
events satisfy this performs no open and no seek. -/
def IOEvent.isBlobRead : IOEvent → Bool
  | .readBlob _ => true
  | _ => false

/-- Number of blob bytes obtained according to a trace. -/
def blobBytes (tr : List IOEvent) : Nat :=
  (tr.map fun ev => match ev with | .readBlob n => n | _ => 0).sum

/-- An open archive-blob handle wrapped in a byte-count limiter: the
embedding of `Take<File>` after `File::open` and `seek(SeekFrom::Start _)`
have run. `blob` is the file's full contents, `pos` the current position
(a seek past end-of-file succeeds and parks the position there), and
`limit` the number of bytes the `take` adapter will still let through. -/
structure TakeFile where
  blob : List Nat
  pos : Nat
  limit : Nat
  deriving DecidableEq, Repr

/-- The bytes a limited handle can still yield: the blob contents from the
current position on, capped by the remaining limit. -/
def TakeFile.window (f : TakeFile) : List Nat :=
  (f.blob.drop f.pos).take f.limit

/-- One read of at most `k` bytes from a limited handle: the underlying
file yields the bytes available at `pos`, capped by `limit` and by `k`;
position and limit advance by the number of bytes obtained. At or past
end-of-file, or with an exhausted limit, the read returns no bytes. -/
def TakeFile.read (f : TakeFile) (k : Nat) : List Nat × TakeFile :=
  (f.window.take k,
   ⟨f.blob, f.pos + (f.window.take k).length, f.limit - (f.window.take k).length⟩)

/-- The reader over a `VPKEntry` (enum `VPKEntryReader` in
`src/entry.rs`). A `std::io::Cursor<&[u8]>` is embedded as the underlying
slice together with the cursor position. -/
inductive VPKEntryReader where
  | preloadedOnly (preloaded_data : List Nat) (cursorPos : Nat)
  | preloadAndFile (preloaded_data_len : Nat) (preloaded_bytes_read : Nat)
      (preloaded_data : List Nat) (cursorPos : Nat) (file : TakeFile)
  | fileOnly (file : TakeFile)
  deriving DecidableEq, Repr

/-- `VPKEntryReader::new`: with no file the reader serves only the
preloaded data; with a file it serves only the file when the preloaded
data is empty, and preloaded data first, then the file, otherwise. -/
def VPKEntryReader.new (preloaded_data : List Nat) (file : Option TakeFile) :
    VPKEntryReader :=
  match file with
  | some f =>
    if preloaded_data.isEmpty then .fileOnly f
    else .preloadAndFile preloaded_data.length 0 preloaded_data 0 f
  | none => .preloadedOnly preloaded_data 0

/-- One `poll_read` with a destination buffer of `k` bytes, embedded as a
function returning the bytes produced, the blob-read events performed,
and the successor reader state. Mirrors the three match arms of
`poll_read`: in the mixed state, once `preloaded_bytes_read` has reached
`preloaded_data_len` reads go straight to the file; otherwise the cursor
is read first and, when it filled fewer than `k` bytes, the file is read
for the remainder in the same call, with `preloaded_bytes_read` advanced
by the total number of bytes produced. -/
def VPKEntryReader.readStep :
    VPKEntryReader → Nat → List Nat × List IOEvent × VPKEntryReader
  | .preloadedOnly data cpos, k =>
    ((data.drop cpos).take k, [],
     .preloadedOnly data (cpos + ((data.drop cpos).take k).length))
  | .preloadAndFile len pr data cpos f, k =>
    if len ≤ pr then
      ((f.read k).1, [.readBlob (f.read k).1.length],
       .preloadAndFile len pr data cpos (f.read k).2)
    else
      if ((data.drop cpos).take k).length < k then
        ((data.drop cpos).take k ++ (f.read (k - ((data.drop cpos).take k).length)).1,
         [.readBlob (f.read (k - ((data.drop cpos).take k).length)).1.length],
         .preloadAndFile len
           (pr + (((data.drop cpos).take k).length
                   + (f.read (k - ((data.drop cpos).take k).length)).1.length))
           data (cpos + ((data.drop cpos).take k).length)
           (f.read (k - ((data.drop cpos).take k).length)).2)
      else
        ((data.drop cpos).take k, [],
         .preloadAndFile len (pr + ((data.drop cpos).take k).length) data
           (cpos + ((data.drop cpos).take k).length) f)
  | .fileOnly f, k =>
    ((f.read k).1, [.readBlob (f.read k).1.length], .fileOnly (f.read k).2)

/-- A sequence of `poll_read` calls with the given destination-buffer
sizes, concatenating the bytes produced and the events performed. -/
def VPKEntryReader.readMany :
    VPKEntryReader → List Nat → List Nat × List IOEvent × VPKEntryReader
  | r, [] => ([], [], r)
  | r, k :: ks =>
    ((r.readStep k).1 ++ ((r.readStep k).2.2.readMany ks).1,
     (r.readStep k).2.1 ++ ((r.readStep k).2.2.readMany ks).2.1,
     ((r.readStep k).2.2.readMany ks).2.2)

/-- The bytes a reader state has left to produce: the unread part of the
cursor (none once the preloaded phase is over) followed by the remaining
window of the blob. -/
def VPKEntryReader.remaining : VPKEntryReader → List Nat
  | .preloadedOnly data cpos => data.drop cpos
  | .preloadAndFile len pr data cpos f =>
    (if len ≤ pr then [] else data.drop cpos) ++ f.window
  | .fileOnly f => f.window

/-- The remaining `take` limit of the reader's blob handle, if any. -/
def VPKEntryReader.limitOf : VPKEntryReader → Nat
  | .preloadedOnly _ _ => 0
  | .preloadAndFile _ _ _ _ f => f.limit
  | .fileOnly f => f.limit

/-- `true` exactly on the preloaded-only reader state. -/
def VPKEntryReader.isPreloadedOnly : VPKEntryReader → Bool
  | .preloadedOnly _ _ => true
  | _ => false

/-- `true` exactly on the mixed preload-then-file reader state. -/
def VPKEntryReader.isPreloadAndFile : VPKEntryReader → Bool
  | .preloadAndFile _ _ _ _ _ => true
  | _ => false

/-- `true` exactly on the file-only reader state. -/
def VPKEntryReader.isFileOnly : VPKEntryReader → Bool
  | .fileOnly _ => true
  | _ => false

/-- `read_to_end`: drive `poll_read` until a call produces no bytes,
accumulating everything produced. Each call offers a 32-byte destination
buffer; the granularity does not affect the accumulated result. `fuel`
bounds the number of calls and is chosen large enough by the caller. -/
def VPKEntryReader.readToEnd :
    Nat → VPKEntryReader → List Nat → List Nat × VPKEntryReader
  | 0, r, acc => (acc, r)
  | fuel + 1, r, acc =>
    if (r.readStep 32).1.isEmpty then (acc, (r.readStep 32).2.2)
    else VPKEntryReader.readToEnd fuel (r.readStep 32).2.2 (acc ++ (r.readStep 32).1)

/-- `VPKEntry::reader`: with no archive path the reader serves only the
preloaded data and touches no file; otherwise the blob is opened, seeked
once to `archive_offset`, limited to `file_length` bytes, and handed to
`VPKEntryReader::new`. The events performed are returned alongside. -/
def VPKEntry.reader (fs : Nat → Option (List Nat)) (e : VPKEntry) :
    Except IOErr (VPKEntryReader × List IOEvent) :=
  match e.archive_path with
  | none => .ok (VPKEntryReader.new e.preload_data none, [])
  | some path =>
    match fs path with
    | none => .error .notFound
    | some blob =>
      .ok (VPKEntryReader.new e.preload_data
            (some ⟨blob, e.dir_entry.archive_offset, e.dir_entry.file_length⟩),
           [.fopen path, .seekTo e.dir_entry.archive_offset])

/-- `VPKEntry::get`: build the reader and read it to completion. The fuel
handed to the read loop exceeds the number of bytes the reader can
produce, so the loop always runs until a read returns no bytes. -/
def VPKEntry.get (fs : Nat → Option (List Nat)) (e : VPKEntry) :
    Except IOErr (List Nat) :=
  match e.reader fs with
  | .error er => .error er
  | .ok (r, _) => .ok (VPKEntryReader.readToEnd (r.remaining.length + 1) r []).1

/-- States of the reader reachable from `VPKEntryReader::new`: in the
mixed state the recorded preloaded length is the cursor slice's length,
and either the byte counter agrees with the cursor position (preload phase)
or the counter has reached the preloaded length and the cursor is fully
drained (file phase). -/
def VPKEntryReader.inv : VPKEntryReader → Prop
  | .preloadedOnly _ _ => True
  | .preloadAndFile len pr data cpos _ =>
    len = data.length ∧ ((pr = cpos ∧ cpos ≤ len) ∨ (len ≤ pr ∧ cpos = len))
  | .fileOnly _ => True

/-- The reader has finished (or never had) a preload phase, so every
further byte comes from the blob handle. -/
def VPKEntryReader.preloadDone : VPKEntryReader → Prop
  | .preloadedOnly _ _ => False
  | .preloadAndFile len pr _ _ _ => len ≤ pr
  | .fileOnly _ => True

/-! ### Header decoding lemmas -/

/-- Full characterization of header decoding: it succeeds exactly when 18
bytes are available at the cursor, produces the six little-endian fields
at their fixed offsets, and leaves the cursor 18 bytes further on. -/
theorem VPKDirectoryEntry.decode_eq (bytes : List Nat) (pos : Nat) :
    VPKDirectoryEntry.decode bytes pos =
      if pos + 18 ≤ bytes.length then
        .ok (⟨u32v bytes pos, u16v bytes (pos + 4), u16v bytes (pos + 6),
              u32v bytes (pos + 8), u32v bytes (pos + 12), u16v bytes (pos + 16)⟩,
             pos + 18)
      else .error .truncated := by
  unfold VPKDirectoryEntry.decode readU32le readU16le
  by_cases h18 : pos + 18 ≤ bytes.length
  · rw [if_pos h18, if_pos (by omega)]
    simp only []
    rw [if_pos (by omega)]
    simp only []
    rw [if_pos (by omega)]
    simp only []
    rw [if_pos (by omega)]
    simp only []
    rw [if_pos (by omega)]
    simp only []
    rw [if_pos (by omega)]
  · rw [if_neg h18]
    by_cases h4 : pos + 4 ≤ bytes.length
    · rw [if_pos h4]
      simp only []
      by_cases h6 : pos + 4 + 2 ≤ bytes.length
      · rw [if_pos h6]
        simp only []
        by_cases h8 : pos + 4 + 2 + 2 ≤ bytes.length
        · rw [if_pos h8]
          simp only []
          by_cases h12 : pos + 4 + 2 + 2 + 4 ≤ bytes.length
          · rw [if_pos h12]
            simp only []
            by_cases h16 : pos + 4 + 2 + 2 + 4 + 4 ≤ bytes.length
            · rw [if_pos h16]
              simp only []
              rw [if_neg (by omega)]
            · rw [if_neg h16]
          · rw [if_neg h12]
        · rw [if_neg h8]
      · rw [if_neg h6]
    · rw [if_neg h4]

/-! ### List helpers -/

theorem drop_min_length (l : List Nat) (k : Nat) :
    l.drop (min k l.length) = l.drop k := by
  rcases Nat.le_total k l.length with h | h
  · rw [Nat.min_eq_left h]
  · rw [Nat.min_eq_right h, List.drop_eq_nil_of_le (Nat.le_refl _),
        List.drop_eq_nil_of_le h]

theorem drop_take_length (l : List Nat) (k : Nat) :
    l.drop ((l.take k).length) = l.drop k := by
  rw [List.length_take]; exact drop_min_length l k

theorem drop_add_take_length (data : List Nat) (cpos k : Nat) :
    data.drop (cpos + ((data.drop cpos).take k).length) = (data.drop cpos).drop k := by
  have h := List.drop_drop (((data.drop cpos).take k).length) cpos data
  rw [← h, drop_take_length]

/-! ### TakeFile lemmas -/

theorem TakeFile.read_fst (f : TakeFile) (k : Nat) :
    (f.read k).1 = f.window.take k := rfl

theorem TakeFile.read_blob (f : TakeFile) (k : Nat) :
    (f.read k).2.blob = f.blob := rfl

theorem TakeFile.read_limit (f : TakeFile) (k : Nat) :
    (f.read k).2.limit = f.limit - (f.read k).1.length := rfl

theorem TakeFile.read_length_le (f : TakeFile) (k : Nat) :
    (f.read k).1.length ≤ f.limit := by
  rw [TakeFile.read_fst, List.length_take, TakeFile.window, List.length_take]
  omega

theorem TakeFile.read_window (f : TakeFile) (k : Nat) :
    (f.read k).2.window = f.window.drop k := by
  show ((f.blob.drop (f.pos + (f.window.take k).length)).take
          (f.limit - (f.window.take k).length)) = f.window.drop k
  have h := List.drop_drop ((f.window.take k).length) f.pos f.blob
  rw [← h]
  have h2 := List.drop_take f.limit ((f.window.take k).length) (f.blob.drop f.pos)
  rw [← h2]
  exact drop_take_length f.window k

/-! ### Reader stream lemmas -/

/-- One `poll_read` on an invariant-respecting state produces exactly the
next `k` bytes of the reader's remaining stream, leaves the rest, and
preserves the invariant. -/
theorem readStep_stream (r : VPKEntryReader) (k : Nat) (h : r.inv) :
    (r.readStep k).1 = r.remaining.take k ∧
    (r.readStep k).2.2.remaining = r.remaining.drop k ∧
    (r.readStep k).2.2.inv := by
  cases r with
  | preloadedOnly data cpos =>
    exact ⟨rfl, drop_add_take_length data cpos k, trivial⟩
  | fileOnly f =>
    exact ⟨TakeFile.read_fst f k, TakeFile.read_window f k, trivial⟩
  | preloadAndFile len pr data cpos f =>
    obtain ⟨hlen, hcase⟩ := h
    by_cases hpr : len ≤ pr
    · simp only [VPKEntryReader.readStep, VPKEntryReader.remaining, if_pos hpr,
                 List.nil_append]
      exact ⟨TakeFile.read_fst f k, TakeFile.read_window f k, hlen, hcase⟩
    · have hpc : pr = cpos ∧ cpos ≤ len := by
        rcases hcase with h | h
        · exact h
        · exact absurd h.1 hpr
      obtain ⟨hpc, hle⟩ := hpc
      have htl : (data.drop cpos).length = len - cpos := by
        rw [List.length_drop, ← hlen]
      by_cases hlt : ((data.drop cpos).take k).length < k
      · have htk : (data.drop cpos).length < k := by
          have := List.length_take k (data.drop cpos); omega
        simp only [VPKEntryReader.readStep, VPKEntryReader.remaining,
                   if_neg hpr, if_pos hlt]
        rw [List.take_of_length_le (Nat.le_of_lt htk)]
        refine ⟨?_, ?_, ?_⟩
        · rw [TakeFile.read_fst, List.take_append_eq_append_take,
              List.take_of_length_le (Nat.le_of_lt htk)]
        · have hif : len ≤ pr + ((data.drop cpos).length
              + (f.read (k - (data.drop cpos).length)).1.length) := by
            have h1 : len ≤ pr + (data.drop cpos).length := by omega
            exact Nat.le_trans h1 (Nat.add_le_add_left (Nat.le_add_right _ _) _)
          rw [if_pos hif, List.nil_append, TakeFile.read_window,
              List.drop_append_eq_append_drop,
              List.drop_eq_nil_of_le (Nat.le_of_lt htk), List.nil_append]
        · refine ⟨hlen, Or.inr ⟨?_, by omega⟩⟩
          have h1 : len ≤ pr + (data.drop cpos).length := by omega
          exact Nat.le_trans h1 (Nat.add_le_add_left (Nat.le_add_right _ _) _)
      · have ho1 : ((data.drop cpos).take k).length = k := by
          rw [List.length_take]
          have := List.length_take k (data.drop cpos)
          omega
        have hk : k ≤ (data.drop cpos).length := by
          have := List.length_take k (data.drop cpos); omega
        simp only [VPKEntryReader.readStep, VPKEntryReader.remaining,
                   if_neg hpr, if_neg hlt]
        rw [ho1]
        refine ⟨?_, ?_, ?_⟩
        · rw [List.take_append_of_le_length hk]
        · by_cases hfin : len ≤ pr + k
          · rw [if_pos hfin, List.drop_append_of_le_length hk,
                List.drop_eq_nil_of_le (by omega), List.nil_append]
          · rw [if_neg hfin, List.drop_append_of_le_length hk]
            have h := List.drop_drop k cpos data
            rw [← h]
        · exact ⟨hlen, Or.inl ⟨by omega, by omega⟩⟩

/-- A sequence of `poll_read` calls produces exactly the first
`ks.sum` bytes of the remaining stream, leaves the rest, and preserves
the invariant. -/
theorem readMany_stream (ks : List Nat) (r : VPKEntryReader) (h : r.inv) :
    (r.readMany ks).1 = r.remaining.take ks.sum ∧
    (r.readMany ks).2.2.remaining = r.remaining.drop ks.sum ∧
    (r.readMany ks).2.2.inv := by
  induction ks generalizing r with
  | nil => simpa [VPKEntryReader.readMany] using h
  | cons k ks ih =>
    obtain ⟨h1, h2, h3⟩ := readStep_stream r k h
    obtain ⟨ih1, ih2, ih3⟩ := ih ((r.readStep k).2.2) h3
    refine ⟨?_, ?_, ih3⟩
    · show (r.readStep k).1 ++ ((r.readStep k).2.2.readMany ks).1 = _
      rw [h1, ih1, h2, List.sum_cons, List.take_add]
    · show ((r.readStep k).2.2.readMany ks).2.2.remaining = _
      rw [ih2, h2, List.sum_cons, List.drop_drop]

/-- `read_to_end` with enough fuel appends the whole remaining stream to
the accumulator. -/
theorem readToEnd_stream (fuel : Nat) (r : VPKEntryReader) (acc : List Nat)
    (h : r.inv) (hf : r.remaining.length < fuel) :
    (VPKEntryReader.readToEnd fuel r acc).1 = acc ++ r.remaining := by
  induction fuel generalizing r acc with
  | zero => omega
  | succ n ih =>
    obtain ⟨h1, h2, h3⟩ := readStep_stream r 32 h
    show (if (r.readStep 32).1.isEmpty then (acc, (r.readStep 32).2.2)
          else VPKEntryReader.readToEnd n (r.readStep 32).2.2
            (acc ++ (r.readStep 32).1)).1 = acc ++ r.remaining
    rcases hrem : r.remaining with _ | ⟨x, xs⟩
    · rw [h1, hrem]
      simp
    · have hne : (r.readStep 32).1.isEmpty = false := by
        rw [h1, hrem]
        rfl
      rw [hne, if_neg (by simp)]
      rw [ih _ _ h3 ?hfuel]
      · rw [h1, h2, List.append_assoc, List.take_append_drop, hrem]
      case hfuel =>
        rw [h2, List.length_drop]
        rw [hrem] at hf ⊢
        simp only [List.length_cons] at hf ⊢
        omega

/-! ### Construction lemmas -/

theorem new_inv (p : List Nat) (file : Option TakeFile) :
    (VPKEntryReader.new p file).inv := by
  cases file with
  | none => trivial
  | some f =>
    by_cases h : p.isEmpty
    · simp only [VPKEntryReader.new, if_pos h]
      trivial
    · simp only [VPKEntryReader.new, if_neg h]
      exact ⟨rfl, Or.inl ⟨rfl, Nat.zero_le _⟩⟩

theorem new_remaining_none (p : List Nat) :
    (VPKEntryReader.new p none).remaining = p := List.drop_zero p

theorem new_remaining_some (p : List Nat) (f : TakeFile) :
    (VPKEntryReader.new p (some f)).remaining = p ++ f.window := by
  by_cases h : p.isEmpty
  · simp only [VPKEntryReader.new, if_pos h, VPKEntryReader.remaining]
    rw [List.isEmpty_iff.mp h, List.nil_append]
  · simp only [VPKEntryReader.new, if_neg h, VPKEntryReader.remaining]
    rw [if_neg, List.drop_zero]
    have := List.isEmpty_eq_false_iff_exists_mem.mp (by simpa using h)
    intro hc
    rcases this with ⟨a, ha⟩
    cases List.eq_nil_of_length_eq_zero (Nat.le_zero.mp hc) ▸ ha

theorem reader_none (fs : Nat → Option (List Nat)) (e : VPKEntry)
    (h : e.archive_path = none) :
    e.reader fs = .ok (.preloadedOnly e.preload_data 0, []) := by
  unfold VPKEntry.reader
  rw [h]
  rfl

theorem reader_some (fs : Nat → Option (List Nat)) (e : VPKEntry)
    (p : Nat) (blob : List Nat)
    (hp : e.archive_path = some p) (hb : fs p = some blob) :
    e.reader fs = .ok (VPKEntryReader.new e.preload_data
        (some ⟨blob, e.dir_entry.archive_offset, e.dir_entry.file_length⟩),
      [.fopen p, .seekTo e.dir_entry.archive_offset]) := by
  unfold VPKEntry.reader
  rw [hp]
  simp only []
  rw [hb]

/-! ### read-to-completion lemmas -/

theorem get_eq_of_reader {fs : Nat → Option (List Nat)} {e : VPKEntry}
    {r : VPKEntryReader} {tr : List IOEvent}
    (h : e.reader fs = Except.ok (r, tr)) (hinv : r.inv) :
    e.get fs = .ok r.remaining := by
  unfold VPKEntry.get
  rw [h]
  simp only []
  rw [readToEnd_stream _ _ _ hinv (by omega), List.nil_append]

theorem get_none (fs : Nat → Option (List Nat)) (e : VPKEntry)
    (h : e.archive_path = none) :
    e.get fs = .ok e.preload_data := by
  rw [get_eq_of_reader (reader_none fs e h) trivial]
  show Except.ok (e.preload_data.drop 0) = _
  rw [List.drop_zero]

theorem get_some (fs : Nat → Option (List Nat)) (e : VPKEntry)
    (p : Nat) (blob : List Nat)
    (hp : e.archive_path = some p) (hb : fs p = some blob) :
    e.get fs = .ok (e.preload_data ++
      (blob.drop e.dir_entry.archive_offset).take e.dir_entry.file_length) := by
  rw [get_eq_of_reader (reader_some fs e p blob hp hb) (new_inv _ _), new_remaining_some]
  rfl

/-! ### Blob-byte accounting -/

theorem blobBytes_append (a b : List IOEvent) :
    blobBytes (a ++ b) = blobBytes a + blobBytes b := by
  unfold blobBytes
  rw [List.map_append, List.sum_append]

/-- A single `poll_read` never opens or seeks: its event trace consists of
blob reads only. -/
theorem readStep_events_blobOnly (r : VPKEntryReader) (k : Nat) :
    ((r.readStep k).2.1).all IOEvent.isBlobRead = true := by
  cases r with
  | preloadedOnly data cpos => rfl
  | fileOnly f => rfl
  | preloadAndFile len pr data cpos f =>
    simp only [VPKEntryReader.readStep]
    by_cases hpr : len ≤ pr
    · rw [if_pos hpr]; rfl
    · rw [if_neg hpr]
      by_cases hlt : ((data.drop cpos).take k).length < k
      · rw [if_pos hlt]; rfl
      · rw [if_neg hlt]; rfl

/-- One `poll_read` takes from the blob exactly the bytes by which the
remaining `take` limit decreases, and the limit never grows. -/
theorem readStep_blob (r : VPKEntryReader) (k : Nat) :
    blobBytes (r.readStep k).2.1 = r.limitOf - (r.readStep k).2.2.limitOf ∧
    (r.readStep k).2.2.limitOf ≤ r.limitOf := by
  cases r with
  | preloadedOnly data cpos => exact ⟨rfl, Nat.le_refl _⟩
  | fileOnly f =>
    have h := TakeFile.read_length_le f k
    refine ⟨?_, ?_⟩
    · show (f.read k).1.length + 0 = f.limit - (f.limit - (f.read k).1.length)
      omega
    · show f.limit - (f.read k).1.length ≤ f.limit
      omega
  | preloadAndFile len pr data cpos f =>
    simp only [VPKEntryReader.readStep]
    by_cases hpr : len ≤ pr
    · rw [if_pos hpr]
      have h := TakeFile.read_length_le f k
      refine ⟨?_, ?_⟩
      · show (f.read k).1.length + 0 = f.limit - (f.limit - (f.read k).1.length)
        omega
      · show f.limit - (f.read k).1.length ≤ f.limit
        omega
    · rw [if_neg hpr]
      by_cases hlt : ((data.drop cpos).take k).length < k
      · rw [if_pos hlt]
        have h := TakeFile.read_length_le f (k - ((data.drop cpos).take k).length)
        refine ⟨?_, ?_⟩
        · show (f.read _).1.length + 0 = f.limit - (f.limit - (f.read _).1.length)
          omega
        · show f.limit - (f.read _).1.length ≤ f.limit
          omega
      · rw [if_neg hlt]
        refine ⟨?_, Nat.le_refl _⟩
        show (0 : Nat) = f.limit - f.limit
        omega

/-- Over any sequence of reads, the blob bytes recorded in the trace are
exactly the decrease of the `take` limit, which never grows. -/
theorem readMany_blob (ks : List Nat) (r : VPKEntryReader) :
    blobBytes (r.readMany ks).2.1 = r.limitOf - (r.readMany ks).2.2.limitOf ∧
    (r.readMany ks).2.2.limitOf ≤ r.limitOf := by
  induction ks generalizing r with
  | nil => exact ⟨by simp [VPKEntryReader.readMany, blobBytes], Nat.le_refl _⟩
  | cons k ks ih =>
    obtain ⟨h1, h2⟩ := readStep_blob r k
    obtain ⟨h3, h4⟩ := ih ((r.readStep k).2.2)
    refine ⟨?_, ?_⟩
    · show blobBytes ((r.readStep k).2.1 ++ ((r.readStep k).2.2.readMany ks).2.1)
        = r.limitOf - ((r.readStep k).2.2.readMany ks).2.2.limitOf
      rw [blobBytes_append, h1, h3]
      omega
    · show ((r.readStep k).2.2.readMany ks).2.2.limitOf ≤ r.limitOf
      omega

/-- All the reads in a sequence consist of blob reads only. -/
theorem readMany_events_blobOnly (ks : List Nat) (r : VPKEntryReader) :
    ((r.readMany ks).2.1).all IOEvent.isBlobRead = true := by
  induction ks generalizing r with
  | nil => rfl
  | cons k ks ih =>
    show ((r.readStep k).2.1 ++ ((r.readStep k).2.2.readMany ks).2.1).all _ = true
    rw [List.all_append, readStep_events_blobOnly, ih]
    rfl

/-- Once the preload phase is over it stays over. -/
theorem readStep_preloadDone (r : VPKEntryReader) (k : Nat)
    (h : r.preloadDone) : (r.readStep k).2.2.preloadDone := by
  cases r with
  | preloadedOnly data cpos => exact h.elim
  | fileOnly f => trivial
  | preloadAndFile len pr data cpos f =>
    have h' : len ≤ pr := h
    simp only [VPKEntryReader.readStep, if_pos h']
    exact h'

/-- A step from an invariant-respecting state in which the blob has
already been touched (limit strictly below its initial value) keeps the
property that a strictly-decreased limit implies a finished preload
phase. -/
theorem readStep_limit_lt (flen0 : Nat) (r : VPKEntryReader) (k : Nat)
    (hinv : r.inv) (h : r.limitOf < flen0 → r.preloadDone)
    (h' : (r.readStep k).2.2.limitOf < flen0) :
    (r.readStep k).2.2.preloadDone := by
  cases r with
  | preloadedOnly data cpos => exact (h h').elim
  | fileOnly f => trivial
  | preloadAndFile len pr data cpos f =>
    obtain ⟨hlen, hcase⟩ := hinv
    by_cases hpr : len ≤ pr
    · simp only [VPKEntryReader.readStep, if_pos hpr] at h' ⊢
      exact hpr
    · have hpc : pr = cpos ∧ cpos ≤ len := by
        rcases hcase with hc | hc
        · exact hc
        · exact absurd hc.1 hpr
      by_cases hlt : ((data.drop cpos).take k).length < k
      · simp only [VPKEntryReader.readStep, if_neg hpr, if_pos hlt]
        show len ≤ pr + (((data.drop cpos).take k).length + _)
        have htk : (data.drop cpos).length < k := by
          have := List.length_take k (data.drop cpos); omega
        rw [List.take_of_length_le (Nat.le_of_lt htk)]
        have htl : (data.drop cpos).length = len - cpos := by
          rw [List.length_drop, ← hlen]
        omega
      · simp only [VPKEntryReader.readStep, if_neg hpr, if_neg hlt] at h' ⊢
        exact absurd (h h') hpr

/-- Fold of the previous two lemmas over a read sequence. -/
theorem readMany_limit_lt (flen0 : Nat) (ks : List Nat) (r : VPKEntryReader)
    (hinv : r.inv) (h : r.limitOf < flen0 → r.preloadDone) :
    ((r.readMany ks).2.2.limitOf < flen0 → (r.readMany ks).2.2.preloadDone) := by
  induction ks generalizing r with
  | nil => exact h
  | cons k ks ih =>
    obtain ⟨_, _, hinv'⟩ := readStep_stream r k hinv
    exact ih ((r.readStep k).2.2) hinv' (readStep_limit_lt flen0 r k hinv h)

/-- With the preload phase over and the limit exhausted, every further
read returns end-of-data. -/
theorem readStep_eof (r : VPKEntryReader) (k : Nat)
    (hd : r.preloadDone) (hl : r.limitOf = 0) : (r.readStep k).1 = [] := by
  cases r with
  | preloadedOnly data cpos => exact hd.elim
  | fileOnly f =>
    show f.window.take k = []
    unfold TakeFile.window
    rw [show f.limit = 0 from hl, List.take_zero, List.take_nil]
  | preloadAndFile len pr data cpos f =>
    have hd' : len ≤ pr := hd
    simp only [VPKEntryReader.readStep, if_pos hd']
    show f.window.take k = []
    unfold TakeFile.window
    rw [show f.limit = 0 from hl, List.take_zero, List.take_nil]

theorem new_limitOf (p : List Nat) (f : TakeFile) :
    (VPKEntryReader.new p (some f)).limitOf = f.limit := by
  by_cases h : p.isEmpty = true
  · simp only [VPKEntryReader.new, if_pos h, VPKEntryReader.limitOf]
  · simp only [VPKEntryReader.new, if_neg h, VPKEntryReader.limitOf]

/-! ### Claims -/

/-- C2: decoding a directory-entry record whose 2-byte terminator field
does not equal the expected sentinel fails with the terminator-mismatch
`MalformedHeader` error; no header value is returned for such input. -/
theorem decode_header_rejects_bad_terminator
    (bytes : List Nat) (pos : Nat) (e : VPKDirectoryEntry) (p' : Nat)
    (hd : VPKDirectoryEntry.decode bytes pos = .ok (e, p'))
    (hs : e.suffix ≠ terminatorSentinel) :
    decode_header bytes pos = .error .badTerminator := by
  unfold decode_header
  rw [hd]
  simp only []
  rw [if_neg hs]

/-- Witness for C2: an 18-byte record with terminator `0x0000` is
rejected. -/
theorem decode_header_rejects_bad_terminator_witness :
    decode_header (List.replicate 18 0) 0 = .error .badTerminator :=
  decode_header_rejects_bad_terminator (List.replicate 18 0) 0
    ⟨0, 0, 0, 0, 0, 0⟩ 18 (by rfl) (by decide)

/-- C3 (counterexample): on a well-formed record, decoding succeeds and
advances the cursor from 0 to 18, not to 16 — the six field widths
(4+2+2+4+4+2) sum to 18 bytes, not 16. -/
theorem decode_consumes_16_cex :
    VPKDirectoryEntry.decode
        [0xEF, 0xBE, 0xAD, 0xDE, 3, 0, 0, 0, 100, 0, 0, 0, 7, 0, 0, 0, 0xFF, 0xFF] 0
      = .ok (⟨0xDEADBEEF, 3, 0, 100, 7, 0xFFFF⟩, 18) := by rfl

/-- C3 (amended): successful header decoding consumes exactly 18 bytes
(the sum of the six field widths) and advances the cursor by exactly 18;
the six fields are decoded little-endian in the fixed order checksum,
preload length, archive index, archive offset, file length, terminator,
at byte offsets 0, 4, 6, 8, 12 and 16 of the record. -/
theorem decode_consumes_exactly_18 :
    (∀ (bytes : List Nat) (pos : Nat) (e : VPKDirectoryEntry) (p' : Nat),
        VPKDirectoryEntry.decode bytes pos = .ok (e, p') → p' = pos + 18) ∧
    (∀ (bytes : List Nat) (pos : Nat), pos + 18 ≤ bytes.length →
        VPKDirectoryEntry.decode bytes pos =
          .ok (⟨u32v bytes pos, u16v bytes (pos + 4), u16v bytes (pos + 6),
                u32v bytes (pos + 8), u32v bytes (pos + 12),
                u16v bytes (pos + 16)⟩, pos + 18)) := by
  constructor
  · intro bytes pos e p' h
    rw [VPKDirectoryEntry.decode_eq] at h
    by_cases hc : pos + 18 ≤ bytes.length
    · rw [if_pos hc] at h
      have := (Prod.mk.injEq _ _ _ _).mp (Except.ok.inj h)
      exact this.2.symm
    · rw [if_neg hc] at h
      exact absurd h (by simp)
  · intro bytes pos h
    rw [VPKDirectoryEntry.decode_eq, if_pos h]

/-- Witness for C3 (amended), on a concrete all-zero 18-byte record. -/
theorem decode_consumes_exactly_18_witness :
    (18 : Nat) = 0 + 18 ∧
    VPKDirectoryEntry.decode (List.replicate 18 0) 0 =
      .ok (⟨u32v (List.replicate 18 0) 0, u16v (List.replicate 18 0) (0 + 4),
            u16v (List.replicate 18 0) (0 + 6), u32v (List.replicate 18 0) (0 + 8),
            u32v (List.replicate 18 0) (0 + 12),
            u16v (List.replicate 18 0) (0 + 16)⟩, 0 + 18) :=
  ⟨decode_consumes_exactly_18.1 (List.replicate 18 0) 0 ⟨0, 0, 0, 0, 0, 0⟩ 18
      (by rfl),
   decode_consumes_exactly_18.2 (List.replicate 18 0) 0 (by decide)⟩

/-- C8: on every input of fewer than 16 bytes, at every starting offset,
header decoding fails with the truncation error (both the bare field
decoder and the terminator-checking wrapper); the embedding reads bytes
only under an explicit in-bounds guard, so no out-of-bounds access is
possible. -/
theorem decode_short_input_truncated (bytes : List Nat) (pos : Nat)
    (h : bytes.length < 16) :
    VPKDirectoryEntry.decode bytes pos = .error .truncated ∧
    decode_header bytes pos = .error .truncated := by
  have hd : VPKDirectoryEntry.decode bytes pos = .error .truncated := by
    rw [VPKDirectoryEntry.decode_eq, if_neg (by omega)]
  refine ⟨hd, ?_⟩
  unfold decode_header
  rw [hd]

/-- Witness for C8: a 3-byte input at offset 5. -/
theorem decode_short_input_truncated_witness :
    VPKDirectoryEntry.decode [1, 2, 3] 5 = .error .truncated ∧
    decode_header [1, 2, 3] 5 = .error .truncated :=
  decode_short_input_truncated [1, 2, 3] 5 (by decide)

/-- C1 (counterexample): an entry whose blob holds 2 bytes while the
header declares `archive_offset = 0`, `file_length = 5` is read to
completion successfully, returning the 2 available bytes — fewer than
`preload_length + file_length = 5` — with no error of any kind. -/
theorem short_blob_read_succeeds_cex :
    VPKEntry.get (fun _ => some [1, 2]) ⟨⟨0, 0, 0, 0, 5, 0xFFFF⟩, some 0, []⟩
      = .ok [1, 2] ∧ (2 : Nat) < 0 + 5 := by
  constructor
  · rfl
  · decide

/-- C1 (amended): for an entry whose archive blob holds fewer than
`archive_offset + file_length` bytes, read-to-completion succeeds and
returns the preload bytes followed by whatever the blob holds from
`archive_offset` on; no `TruncatedArchive` error exists in the code and
none is raised. -/
theorem short_blob_read_all_returns_available
    (fs : Nat → Option (List Nat)) (e : VPKEntry) (p : Nat) (blob : List Nat)
    (hp : e.archive_path = some p) (hb : fs p = some blob)
    (hshort : blob.length < e.dir_entry.archive_offset + e.dir_entry.file_length) :
    e.get fs = .ok (e.preload_data ++ blob.drop e.dir_entry.archive_offset) := by
  rw [get_some fs e p blob hp hb, List.take_of_length_le]
  rw [List.length_drop]
  omega

/-- Witness for C1 (amended): blob `[1,2]`, offset 1, declared length 5. -/
theorem short_blob_read_all_returns_available_witness :
    VPKEntry.get (fun _ => some [1, 2]) ⟨⟨9, 9, 9, 1, 5, 0⟩, some 7, [8]⟩
      = .ok [8, 2] :=
  short_blob_read_all_returns_available (fun _ => some [1, 2])
    ⟨⟨9, 9, 9, 1, 5, 0⟩, some 7, [8]⟩ 7 [1, 2] rfl rfl (by decide)

/-- C7: the concrete scenario — preload bytes `[1,2,3]`, archive offset
100, file length 7, blob bytes `[4,5,6,7,8,9,10]` at offsets 100..107 —
reads to completion as exactly `[1,2,3,4,5,6,7,8,9,10]`: preload bytes
first, then the archive bytes. -/
theorem concrete_read_all_scenario :
    VPKEntry.get
        (fun p => if p = 0 then some (List.replicate 100 0 ++ [4, 5, 6, 7, 8, 9, 10])
                  else none)
        ⟨⟨0xDEADBEEF, 3, 0, 100, 7, 0xFFFF⟩, some 0, [1, 2, 3]⟩
      = .ok [1, 2, 3, 4, 5, 6, 7, 8, 9, 10] := by rfl

/-- C9: for an entry without an archive path, reader construction touches
no file (its event trace is empty and the result does not depend on the
file system), read-to-completion always succeeds and returns exactly the
preload buffer, and in particular — under the data-model invariant that
the buffer holds exactly `preload_length` bytes — an entry with
`preload_length = 0` yields the empty sequence. -/
theorem no_archive_path_read_all_preload
    (fs fs' : Nat → Option (List Nat)) (e : VPKEntry)
    (h : e.archive_path = none) :
    e.reader fs = .ok (.preloadedOnly e.preload_data 0, []) ∧
    e.get fs = .ok e.preload_data ∧
    e.get fs = e.get fs' ∧
    (e.preload_data.length = e.dir_entry.preload_length →
      e.dir_entry.preload_length = 0 → e.get fs = .ok []) := by
  refine ⟨reader_none fs e h, get_none fs e h, ?_, ?_⟩
  · rw [get_none fs e h, get_none fs' e h]
  · intro h1 h2
    rw [get_none fs e h]
    congr 1
    exact List.eq_nil_of_length_eq_zero (by omega)

/-- Witness for C9, at a concrete inline-only entry and two distinct file
systems. -/
theorem no_archive_path_read_all_preload_witness :
    VPKEntry.get (fun _ => none) ⟨⟨5, 2, 0, 0, 0, 0xFFFF⟩, none, [7, 9]⟩
        = .ok [7, 9] ∧
    VPKEntry.get (fun _ => none) ⟨⟨5, 2, 0, 0, 0, 0xFFFF⟩, none, [7, 9]⟩
        = VPKEntry.get (fun _ => some []) ⟨⟨5, 2, 0, 0, 0, 0xFFFF⟩, none, [7, 9]⟩ :=
  ⟨(no_archive_path_read_all_preload (fun _ => none) (fun _ => some [])
      ⟨⟨5, 2, 0, 0, 0, 0xFFFF⟩, none, [7, 9]⟩ rfl).2.1,
   (no_archive_path_read_all_preload (fun _ => none) (fun _ => some [])
      ⟨⟨5, 2, 0, 0, 0, 0xFFFF⟩, none, [7, 9]⟩ rfl).2.2.1⟩

/-- C4 (counterexample): an entry with `file_length = 0` but an archive
path present requires no out-of-line bytes, yet the constructed reader is
in the preload-then-archive state, not the preload-only state — state
selection looks only at the presence of the path and the emptiness of the
preload buffer, never at `file_length`. -/
theorem reader_state_zero_file_length_cex :
    (VPKEntry.reader (fun _ => some []) ⟨⟨0, 0, 0, 0, 0, 0xFFFF⟩, some 0, [1]⟩).map
        (fun x => (x.1.isPreloadedOnly, x.1.isPreloadAndFile))
      = .ok (false, true) := by rfl

/-- C4 (amended): the preload-only state is selected exactly when the
archive path is absent; when a path is present (and the blob opens),
the archive-only state is selected exactly when the preload buffer is
empty and the preload-then-archive state exactly when it is non-empty —
in both cases regardless of `file_length`. -/
theorem reader_state_selection
    (fs : Nat → Option (List Nat)) (e : VPKEntry) (p : Nat) (blob : List Nat)
    (hp : e.archive_path = some p) (hb : fs p = some blob) :
    (e.reader fs).map (fun x => x.1.isPreloadedOnly) = .ok false ∧
    (e.reader fs).map (fun x => x.1.isFileOnly) = .ok e.preload_data.isEmpty ∧
    (e.reader fs).map (fun x => x.1.isPreloadAndFile) = .ok (!e.preload_data.isEmpty) ∧
    (∀ e' : VPKEntry, e'.archive_path = none →
      (e'.reader fs).map (fun x => x.1.isPreloadedOnly) = .ok true) := by
  rw [reader_some fs e p blob hp hb]
  refine ⟨?_, ?_, ?_, ?_⟩
  · by_cases h : e.preload_data.isEmpty = true
    · simp only [VPKEntryReader.new, if_pos h]
      rfl
    · simp only [VPKEntryReader.new, if_neg h]
      rfl
  · by_cases h : e.preload_data.isEmpty = true
    · simp only [VPKEntryReader.new, if_pos h, h]
      rfl
    · simp only [VPKEntryReader.new, if_neg h,
                 Bool.eq_false_iff.mpr h]
      rfl
  · by_cases h : e.preload_data.isEmpty = true
    · simp only [VPKEntryReader.new, if_pos h, h]
      rfl
    · simp only [VPKEntryReader.new, if_neg h,
                 Bool.eq_false_iff.mpr h]
      rfl
  · intro e' h'
    rw [reader_none fs e' h']
    rfl

/-- Witness for C4 (amended): a concrete entry with a non-empty preload
buffer, a present archive path and `file_length = 0`. -/
theorem reader_state_selection_witness :
    (VPKEntry.reader (fun _ => some [7]) ⟨⟨0, 0, 0, 1, 0, 0xFFFF⟩, some 3, [5]⟩).map
        (fun x => x.1.isPreloadedOnly) = .ok false :=
  (reader_state_selection (fun _ => some [7]) ⟨⟨0, 0, 0, 1, 0, 0xFFFF⟩, some 3, [5]⟩
      3 [7] rfl rfl).1

/-- C6: for an entry with a 5-byte preload buffer and `file_length = 10`,
reading through the entry reader in five chunks of 3 bytes and
concatenating the results produces the same byte sequence as one 15-byte
read. -/
theorem chunked_reads_equal_single_read
    (fs : Nat → Option (List Nat)) (e : VPKEntry) (p : Nat) (blob : List Nat)
    (r : VPKEntryReader) (tr : List IOEvent)
    (hp : e.archive_path = some p) (hb : fs p = some blob)
    (_h5 : e.preload_data.length = 5) (_h10 : e.dir_entry.file_length = 10)
    (hr : e.reader fs = .ok (r, tr)) :
    (r.readMany [3, 3, 3, 3, 3]).1 = (r.readMany [15]).1 := by
  rw [reader_some fs e p blob hp hb] at hr
  injection hr with h
  injection h with h1 h2
  subst h1
  have hinv := new_inv e.preload_data
    (some ⟨blob, e.dir_entry.archive_offset, e.dir_entry.file_length⟩)
  obtain ⟨ha, -, -⟩ := readMany_stream [3, 3, 3, 3, 3] _ hinv
  obtain ⟨hc, -, -⟩ := readMany_stream [15] _ hinv
  rw [ha, hc]
  rfl

/-- Witness for C6 at a concrete entry, file system and reader. -/
theorem chunked_reads_equal_single_read_witness :
    ((VPKEntryReader.new [1, 2, 3, 4, 5]
        (some ⟨List.range 20, 0, 10⟩)).readMany [3, 3, 3, 3, 3]).1 =
      ((VPKEntryReader.new [1, 2, 3, 4, 5]
        (some ⟨List.range 20, 0, 10⟩)).readMany [15]).1 :=
  chunked_reads_equal_single_read (fun _ => some (List.range 20))
    ⟨⟨0, 5, 0, 0, 10, 0xFFFF⟩, some 0, [1, 2, 3, 4, 5]⟩ 0 (List.range 20)
    (VPKEntryReader.new [1, 2, 3, 4, 5] (some ⟨List.range 20, 0, 10⟩))
    [.fopen 0, .seekTo 0] rfl rfl rfl rfl rfl

/-- C10: reading never consults the header's `crc32` or `preload_length`
fields — two entries with identical preload buffers, archive paths,
archive offsets, archive indices and file lengths construct identical
readers and read to identical results whatever their `crc32` and
`preload_length`; the number of inline bytes served is governed by the
length of the owned preload buffer, which becomes the reader's recorded
preloaded-data length, not by the header's `preload_length` field. -/
theorem read_ignores_crc_and_preload_length
    (fs : Nat → Option (List Nat)) (e1 e2 : VPKEntry)
    (hpd : e1.preload_data = e2.preload_data)
    (hap : e1.archive_path = e2.archive_path)
    (_hai : e1.dir_entry.archive_index = e2.dir_entry.archive_index)
    (hoff : e1.dir_entry.archive_offset = e2.dir_entry.archive_offset)
    (hlen : e1.dir_entry.file_length = e2.dir_entry.file_length) :
    e1.reader fs = e2.reader fs ∧
    e1.get fs = e2.get fs ∧
    (∀ (p : Nat) (blob : List Nat), e1.archive_path = some p → fs p = some blob →
      e1.preload_data.isEmpty = false →
      e1.reader fs = .ok (.preloadAndFile e1.preload_data.length 0 e1.preload_data 0
          ⟨blob, e1.dir_entry.archive_offset, e1.dir_entry.file_length⟩,
        [.fopen p, .seekTo e1.dir_entry.archive_offset])) := by
  have hr : e1.reader fs = e2.reader fs := by
    unfold VPKEntry.reader
    rw [hpd, hap, hoff, hlen]
  refine ⟨hr, ?_, ?_⟩
  · unfold VPKEntry.get
    rw [hr]
  · intro p blob hp hb hne
    rw [reader_some fs e1 p blob hp hb]
    simp only [VPKEntryReader.new, hne]
    rfl

/-- Witness for C10: two entries differing exactly in `crc32` and
`preload_length`. -/
theorem read_ignores_crc_and_preload_length_witness :
    VPKEntry.reader (fun _ => some [1, 2, 3, 4, 5, 6])
        ⟨⟨1, 99, 0, 2, 3, 0xFFFF⟩, some 0, [5]⟩ =
      VPKEntry.reader (fun _ => some [1, 2, 3, 4, 5, 6])
        ⟨⟨42, 7, 0, 2, 3, 0xFFFF⟩, some 0, [5]⟩ :=
  (read_ignores_crc_and_preload_length (fun _ => some [1, 2, 3, 4, 5, 6])
    ⟨⟨1, 99, 0, 2, 3, 0xFFFF⟩, some 0, [5]⟩
    ⟨⟨42, 7, 0, 2, 3, 0xFFFF⟩, some 0, [5]⟩ rfl rfl rfl rfl rfl).1

/-- C5: for an entry with an archive path (whose blob opens), reader
construction performs exactly one open of that path and exactly one seek,
to `archive_offset`; reads themselves perform only blob reads (never an
open or a seek); over any sequence of reads the blob yields at most
`file_length` bytes in total; and once `file_length` blob bytes have been
produced, every further read returns end-of-data regardless of the blob's
actual length. -/
theorem reader_single_open_single_seek_bounded
    (fs : Nat → Option (List Nat)) (e : VPKEntry) (p : Nat) (blob : List Nat)
    (hp : e.archive_path = some p) (hb : fs p = some blob) :
    e.reader fs = .ok (VPKEntryReader.new e.preload_data
        (some ⟨blob, e.dir_entry.archive_offset, e.dir_entry.file_length⟩),
      [.fopen p, .seekTo e.dir_entry.archive_offset]) ∧
    (∀ (r' : VPKEntryReader) (k : Nat),
      ((r'.readStep k).2.1).all IOEvent.isBlobRead = true) ∧
    (∀ (r : VPKEntryReader) (tr : List IOEvent) (ks : List Nat),
      e.reader fs = .ok (r, tr) →
      blobBytes (r.readMany ks).2.1 ≤ e.dir_entry.file_length) ∧
    (∀ (r : VPKEntryReader) (tr : List IOEvent) (ks : List Nat) (k : Nat),
      e.reader fs = .ok (r, tr) →
      0 < e.dir_entry.file_length →
      blobBytes (r.readMany ks).2.1 = e.dir_entry.file_length →
      ((r.readMany ks).2.2.readStep k).1 = []) := by
  have hproj : (⟨blob, e.dir_entry.archive_offset, e.dir_entry.file_length⟩
      : TakeFile).limit = e.dir_entry.file_length := rfl
  refine ⟨reader_some fs e p blob hp hb, readStep_events_blobOnly, ?_, ?_⟩
  · intro r tr ks hr
    rw [reader_some fs e p blob hp hb] at hr
    injection hr with h
    injection h with h1 h2
    subst h1
    obtain ⟨hbb, hle⟩ := readMany_blob ks _
    rw [hbb, new_limitOf, hproj]
    omega
  · intro r tr ks k hr hpos hbb
    rw [reader_some fs e p blob hp hb] at hr
    injection hr with h
    injection h with h1 h2
    subst h1
    have hinv := new_inv e.preload_data
      (some ⟨blob, e.dir_entry.archive_offset, e.dir_entry.file_length⟩)
    obtain ⟨hbb', hle⟩ := readMany_blob ks (VPKEntryReader.new e.preload_data
      (some ⟨blob, e.dir_entry.archive_offset, e.dir_entry.file_length⟩))
    rw [hbb', new_limitOf, hproj] at hbb
    rw [new_limitOf, hproj] at hle
    have hl0 : ((VPKEntryReader.new e.preload_data
        (some ⟨blob, e.dir_entry.archive_offset, e.dir_entry.file_length⟩)).readMany
          ks).2.2.limitOf = 0 := by
      omega
    have hdone := readMany_limit_lt e.dir_entry.file_length ks
      (VPKEntryReader.new e.preload_data
        (some ⟨blob, e.dir_entry.archive_offset, e.dir_entry.file_length⟩))
      hinv (fun hlt => absurd hlt (by rw [new_limitOf, hproj]; omega))
      (by omega)
    exact readStep_eof _ k hdone hl0

/-- Witness for C5: its construction clause at a concrete entry, file
system and blob. -/
theorem reader_single_open_single_seek_bounded_witness :
    VPKEntry.reader (fun _ => some [0, 1, 2, 3, 4, 5])
        ⟨⟨0, 0, 0, 2, 3, 0xFFFF⟩, some 1, [9]⟩
      = .ok (VPKEntryReader.new [9] (some ⟨[0, 1, 2, 3, 4, 5], 2, 3⟩),
             [.fopen 1, .seekTo 2]) :=
  (reader_single_open_single_seek_bounded (fun _ => some [0, 1, 2, 3, 4, 5])
    ⟨⟨0, 0, 0, 2, 3, 0xFFFF⟩, some 1, [9]⟩ 1 [0, 1, 2, 3, 4, 5] rfl rfl).1

end VPK
